import Mathlib

/-!
Verification of the task-tracker core: the sanitizer (StringUtils.sanitizeForBranchName),
branch naming (GitService.generateBranchName), the task engine (TaskService) and the
persistence store (StorageService), shallowly embedded from the TypeScript source.
JS strings are modelled as lists of Unicode code points; JS runtime objects read from
JSON are modelled by an explicit JSON value type.
-/

namespace TaskCLI

/-- A JS string, modelled as its list of code points. -/
abbrev Str := List Char

/-- Code-point list of a Lean string literal. -/
def jstr (s : String) : Str := s.data

/-- The JS WhiteSpace and LineTerminator set: the characters matched by the regex
class backslash-s and removed by String.prototype.trim. -/
def isJsSpace (c : Char) : Bool :=
  let v := c.toNat
  v == 0x9 || v == 0xA || v == 0xB || v == 0xC || v == 0xD || v == 0x20 ||
  v == 0xA0 || v == 0x1680 || (0x2000 ≤ v && v ≤ 0x200A) || v == 0x2028 ||
  v == 0x2029 || v == 0x202F || v == 0x205F || v == 0x3000 || v == 0xFEFF

/-- The characters kept by the sanitizer deletion step: lowercase ASCII letters,
ASCII digits and the hyphen (complement of the deleted regex class). -/
def isLowerKeep (c : Char) : Bool :=
  let v := c.toNat
  (97 ≤ v && v ≤ 122) || (48 ≤ v && v ≤ 57) || v == 45

/-- ASCII alphanumeric characters (A-Z, a-z, 0-9), the vocabulary of the spec's
sanitizer-totality sentence. -/
def isAsciiAlnum (c : Char) : Bool :=
  let v := c.toNat
  (65 ≤ v && v ≤ 90) || (97 ≤ v && v ≤ 122) || (48 ≤ v && v ≤ 57)

/-- The hyphen test used by the hyphen-collapsing and hyphen-stripping regexes. -/
def isHy (c : Char) : Bool := c.toNat == 45

/-- JS String.prototype.toLowerCase on one code point (Unicode default case
conversion). ASCII A-Z map into a-z. Outside ASCII, the only code points whose
lowercase mapping contains an ASCII character, a space or a hyphen are U+212A
KELVIN SIGN (to k) and U+0130 LATIN CAPITAL LETTER I WITH DOT ABOVE (to i
followed by U+0307); every other code point is modelled as fixed, which agrees
with the real mapping on every character the later pipeline steps can
distinguish, because those steps only test for spaces, hyphens and ASCII
alphanumerics. -/
def jsToLowerChar (c : Char) : Str :=
  let v := c.toNat
  if 65 ≤ v && v ≤ 90 then [Char.ofNat (v + 32)]
  else if v == 0x212A then ['k']
  else if v == 0x130 then ['i', Char.ofNat 0x307]
  else [c]

/-- JS String.prototype.toLowerCase on a whole string. -/
def jsToLower (s : Str) : Str := (s.map jsToLowerChar).flatten

/-- JS String.prototype.trim: remove leading and trailing JS whitespace. -/
def jsTrim (s : Str) : Str :=
  ((s.dropWhile isJsSpace).reverse.dropWhile isJsSpace).reverse

/-- Replace every maximal run of characters satisfying p by the single
character r, keeping all other characters: the effect of replace of the
global regex (class)+ by r. The Bool flag records being inside a run. -/
def collapseAux (p : Char → Bool) (r : Char) : Bool → Str → Str
  | _, [] => []
  | inRun, c :: cs =>
    if p c then
      if inRun then collapseAux p r true cs else r :: collapseAux p r true cs
    else c :: collapseAux p r false cs

/-- Replace every maximal run of characters satisfying p by the character r. -/
def collapseRuns (p : Char → Bool) (r : Char) (s : Str) : Str :=
  collapseAux p r false s

/-- Remove the leading hyphen run and the trailing hyphen run: the effect of
replacing the global regex matching leading or trailing hyphen runs by the
empty string. -/
def stripHyphens (s : Str) : Str :=
  ((s.dropWhile isHy).reverse.dropWhile isHy).reverse

/-- The sanitizer fallback value. -/
def untitledStr : Str := jstr "untitled"

/-- The sanitizer's main chain, from StringUtils.sanitizeForBranchName:
lowercase, whitespace runs to hyphen, delete everything outside lowercase
letters, digits and hyphens, collapse hyphen runs, strip end hyphens,
truncate to 50 characters, strip end hyphens again. The substring step
counts UTF-16 code units, but by that point every character is ASCII (the
deletion step keeps only lowercase letters, digits and hyphens), so taking
50 code points is exact. -/
def sanitizePipeline (text : Str) : Str :=
  stripHyphens (List.take 50 (stripHyphens (collapseRuns isHy '-'
    (List.filter isLowerKeep (collapseRuns isJsSpace '-' (jsToLower text))))))

/-- StringUtils.sanitizeForBranchName: fallback to the literal untitled when
the input is empty or whitespace-only, or when the pipeline output is empty. -/
def sanitizeForBranchName (text : Str) : Str :=
  if text = [] ∨ jsTrim text = [] then untitledStr
  else
    let sanitized := sanitizePipeline text
    if sanitized = [] then untitledStr else sanitized

/-- GitService.generateBranchName: the template literal
feature/task-(taskId)-(sanitized title). -/
def generateBranchName (taskId : Int) (taskTitle : Str) : Str :=
  jstr "feature/task-" ++ jstr (toString taskId) ++ ['-'] ++
    sanitizeForBranchName taskTitle

/-- The four task status values. -/
inductive TaskStatus
  | «open»
  | in_progress
  | completed
  | archived
deriving DecidableEq

/-- The Task entity of types/index. -/
structure Task where
  id : Int
  title : Str
  description : Option Str
  status : TaskStatus
  branch : Option Str
  createdAt : Str
  updatedAt : Str
deriving DecidableEq

/-- The persisted TaskDatabase: the task collection plus the next-id counter. -/
structure TaskDatabase where
  tasks : List Task
  nextId : Int
deriving DecidableEq

/-- Input of TaskService.createTask. -/
structure CreateTaskInput where
  title : Str
  description : Option Str
deriving DecidableEq

/-- Input of TaskService.updateTask; a none field was not supplied. -/
structure UpdateTaskInput where
  title : Option Str
  description : Option Str
  status : Option TaskStatus
  branch : Option Str
deriving DecidableEq

/-- Options of TaskService.listTasks. An absent includeArchived behaves as
false under JS truthiness, so it is a plain Bool. -/
structure ListOptions where
  status : Option TaskStatus
  includeArchived : Bool
deriving DecidableEq

/-- Tags for the distinct StorageError messages of StorageService. -/
inductive StorageMsgKind
  /-- The corruption message, which directs the caller to tasks.json.bak. -/
  | corruptedBackupHint
  /-- The malformed-shape message raised by the structural check. -/
  | malformedData
  /-- The generic read-failure message of the catch-all branch of load. -/
  | readFailed
  /-- The save-failure message. -/
  | saveFailed
deriving DecidableEq

/-- The fault taxonomy: ValidationError, TaskNotFoundError and StorageError
as raised by the embedded operations. -/
inductive Fault
  | validation (msg : String)
  | notFound (id : Int)
  | storage (kind : StorageMsgKind)
deriving DecidableEq

/-- Message of the title-required ValidationError. -/
def msgTitleRequired : String := "タスクタイトルは必須です"

/-- Message of the title-too-long ValidationError. -/
def msgTitleTooLong : String := "タスクタイトルは200文字以内で入力してください"

/-- The JS string length: the number of UTF-16 code units, counting code
points above U+FFFF twice. -/
def jsLength (s : Str) : Nat :=
  (s.map (fun c => if 0x10000 ≤ c.toNat then 2 else 1)).sum

/-- The optional-description normalisation used by create and update: trim,
then an empty result becomes absent. -/
def trimOrNone (d : Option Str) : Option Str :=
  match d with
  | some s => if jsTrim s = [] then none else some (jsTrim s)
  | none => none

/-- TaskService.createTask at the level of the loaded database. The current
timestamp is a parameter. Validation: falsy or whitespace-only title, then
untrimmed UTF-16 length above 200. -/
def createTask (input : CreateTaskInput) (now : Str) (db : TaskDatabase) :
    Except Fault (Task × TaskDatabase) :=
  if input.title = [] ∨ jsLength (jsTrim input.title) = 0 then
    .error (.validation msgTitleRequired)
  else if 200 < jsLength input.title then
    .error (.validation msgTitleTooLong)
  else
    let task : Task :=
      { id := db.nextId
        title := jsTrim input.title
        description := trimOrNone input.description
        status := .«open»
        branch := none
        createdAt := now
        updatedAt := now }
    .ok (task, { tasks := db.tasks ++ [task], nextId := db.nextId + 1 })

/-- The comparison used by the listTasks sort (ascending by id). -/
def taskIdLe (a b : Task) : Prop := a.id ≤ b.id

instance : DecidableRel taskIdLe := fun a b => inferInstanceAs (Decidable (a.id ≤ b.id))

/-- TaskService.listTasks: filter by exact status when supplied, exclude
archived tasks unless includeArchived, sort ascending by id. -/
def listTasks (options : ListOptions) (db : TaskDatabase) : List Task :=
  let afterStatus :=
    match options.status with
    | some st => db.tasks.filter (fun t => t.status == st)
    | none => db.tasks
  let afterArchived :=
    if options.includeArchived then afterStatus
    else afterStatus.filter (fun t => !(t.status == TaskStatus.archived))
  List.insertionSort taskIdLe afterArchived

/-- TaskService.getTask. -/
def getTask (id : Int) (db : TaskDatabase) : Except Fault Task :=
  match db.tasks.find? (fun t => t.id == id) with
  | some t => .ok t
  | none => .error (.notFound id)

/-- The field updates applied by updateTask once validation has passed:
supplied fields overwrite, omitted fields are untouched, updatedAt is always
refreshed. -/
def applyUpdate (task : Task) (input : UpdateTaskInput) (now : Str) : Task :=
  { task with
    title := match input.title with | some t => jsTrim t | none => task.title
    description :=
      match input.description with
      | some d => if jsTrim d = [] then none else some (jsTrim d)
      | none => task.description
    status := match input.status with | some st => st | none => task.status
    branch := match input.branch with | some b => some b | none => task.branch
    updatedAt := now }

/-- TaskService.updateTask at the level of the loaded database: locate by id,
re-validate a supplied title under the creation rule, apply the supplied
fields, write the task back at its index. -/
def updateTask (id : Int) (input : UpdateTaskInput) (now : Str)
    (db : TaskDatabase) : Except Fault (Task × TaskDatabase) :=
  match db.tasks.findIdx? (fun t => t.id == id) with
  | none => .error (.notFound id)
  | some taskIndex =>
    match db.tasks[taskIndex]? with
    | none => .error (.notFound id) -- unreachable: a findIdx? index is in bounds
    | some task =>
      match input.title with
      | some t =>
        if t = [] ∨ jsLength (jsTrim t) = 0 then .error (.validation msgTitleRequired)
        else if 200 < jsLength t then .error (.validation msgTitleTooLong)
        else
          let updated := applyUpdate task input now
          .ok (updated, { db with tasks := db.tasks.set taskIndex updated })
      | none =>
        let updated := applyUpdate task input now
        .ok (updated, { db with tasks := db.tasks.set taskIndex updated })

/-- TaskService.changeStatus: updateTask with only the status supplied. -/
def changeStatus (id : Int) (status : TaskStatus) (now : Str)
    (db : TaskDatabase) : Except Fault (Task × TaskDatabase) :=
  updateTask id { title := none, description := none, status := some status, branch := none } now db

/-- TaskService.deleteTask: locate by id and splice the task out. -/
def deleteTask (id : Int) (db : TaskDatabase) : Except Fault TaskDatabase :=
  match db.tasks.findIdx? (fun t => t.id == id) with
  | none => .error (.notFound id)
  | some taskIndex => .ok { db with tasks := db.tasks.eraseIdx taskIndex }

/-- TaskService.archiveTask: changeStatus to archived. -/
def archiveTask (id : Int) (now : Str) (db : TaskDatabase) :
    Except Fault (Task × TaskDatabase) :=
  changeStatus id TaskStatus.archived now db

/-- JSON values, the possible results of JSON.parse. Numbers in this program
are integers (ids and the counter), so the number payload is an Int. -/
inductive Json where
  | null
  | bool (b : Bool)
  | num (n : Int)
  | str (s : Str)
  | arr (elems : List Json)
  | obj (fields : List (String × Json))

/-- Render a task status as its JSON string. -/
def statusToStr : TaskStatus → Str
  | .«open» => jstr "open"
  | .in_progress => jstr "in_progress"
  | .completed => jstr "completed"
  | .archived => jstr "archived"

/-- Read a task status back from its JSON string. -/
def statusOfStr (s : Str) : Option TaskStatus :=
  if s = jstr "open" then some .«open»
  else if s = jstr "in_progress" then some .in_progress
  else if s = jstr "completed" then some .completed
  else if s = jstr "archived" then some .archived
  else none

/-- JSON.stringify of one Task: optional fields that are undefined are
omitted from the serialized object. -/
def encodeTask (t : Task) : Json :=
  .obj ([("id", Json.num t.id), ("title", Json.str t.title)]
    ++ (match t.description with
        | some d => [("description", Json.str d)]
        | none => [])
    ++ [("status", Json.str (statusToStr t.status))]
    ++ (match t.branch with
        | some b => [("branch", Json.str b)]
        | none => [])
    ++ [("createdAt", Json.str t.createdAt), ("updatedAt", Json.str t.updatedAt)])

/-- JSON.stringify of the whole database. -/
def encodeDb (db : TaskDatabase) : Json :=
  .obj [("tasks", Json.arr (db.tasks.map encodeTask)), ("nextId", Json.num db.nextId)]

/-- Look a key up in a JSON object's field list (first occurrence). -/
def jGet (fields : List (String × Json)) (key : String) : Option Json :=
  (fields.find? (fun kv => kv.1 == key)).map (fun kv => kv.2)

/-- Structural reading of an optional string-valued field: an absent field is
none, a string field is kept, any other shape is rejected. -/
def decodeOptStr (v : Option Json) : Option (Option Str) :=
  match v with
  | none => some none
  | some (.str s) => some (some s)
  | some _ => none

/-- Structural reading of one Task from JSON, following the documented
schema. Used to state what it means for load output to be a structurally
valid task, and for the round-trip theorem. -/
def decodeTask (j : Json) : Option Task :=
  match j with
  | .obj fields =>
    match jGet fields "id", jGet fields "title", jGet fields "status",
        jGet fields "createdAt", jGet fields "updatedAt",
        decodeOptStr (jGet fields "description"), decodeOptStr (jGet fields "branch") with
    | some (.num i), some (.str ti), some (.str st), some (.str ca),
      some (.str ua), some d, some b =>
      (statusOfStr st).map (fun s =>
        { id := i, title := ti, description := d, status := s, branch := b,
          createdAt := ca, updatedAt := ua })
    | _, _, _, _, _, _, _ => none
  | _ => none

/-- Structural reading of a whole database from JSON. -/
def decodeDb (j : Json) : Option TaskDatabase :=
  match j with
  | .obj fields =>
    match jGet fields "tasks", jGet fields "nextId" with
    | some (.arr elems), some (.num n) =>
      (elems.mapM decodeTask).map (fun ts => { tasks := ts, nextId := n })
    | _, _ => none
  | _ => none

/-- The content a data file can hold: text that parses as JSON, or text on
which JSON.parse raises a SyntaxError. -/
inductive FileContent
  | json (j : Json)
  | invalid (raw : String)

/-- The slice of the filesystem owned by StorageService: the storage
directory, the primary file and the backup file. -/
structure Store where
  dirExists : Bool
  primary : Option FileContent
  backup : Option FileContent

/-- StorageService.exists: the primary data file is present. -/
def existsFile (s : Store) : Bool := s.primary.isSome

/-- StorageService.initialize: create the storage directory if absent. -/
def initializeDir (s : Store) : Store := { s with dirExists := true }

/-- StorageService.backup: copy the primary file over the backup path when
the primary file is present; otherwise do nothing. -/
def backupStep (s : Store) : Store :=
  if existsFile s then { s with backup := s.primary } else s

/-- StorageService.save: ensure the directory, back up the existing primary
file, then overwrite the primary file with the serialized database. -/
def saveFS (db : TaskDatabase) (s : Store) : Store :=
  let s1 := initializeDir s
  let s2 := if existsFile s1 then backupStep s1 else s1
  { s2 with primary := some (.json (encodeDb db)) }

/-- JS property access on a non-null parsed JSON value: a missing key or a
non-object receiver gives undefined (none). Access on null throws, which
loadFS handles separately before calling this. -/
def jsProp (j : Json) (key : String) : Option Json :=
  match j with
  | .obj fields => jGet fields key
  | _ => none

/-- Array.isArray on a possibly-undefined JS value. -/
def jsIsArray (v : Option Json) : Bool :=
  match v with
  | some (.arr _) => true
  | _ => false

/-- The typeof-number test on a possibly-undefined JS value. -/
def jsIsNumber (v : Option Json) : Bool :=
  match v with
  | some (.num _) => true
  | _ => false

/-- The initial database object returned by load when no file exists. -/
def emptyDbJson : Json := .obj [("tasks", Json.arr []), ("nextId", Json.num 1)]

/-- StorageService.load: absent file gives the fresh empty database; an
unparseable file gives the corruption message naming the backup; a file
parsing to JSON null makes the property access of the structural check throw
a TypeError, which the catch-all turns into the generic read-failure message;
any other parse with tasks not an array or nextId not a number gives the
malformed-data message; otherwise the parsed value is returned as is. -/
def loadFS (s : Store) : Except Fault Json :=
  match s.primary with
  | none => .ok emptyDbJson
  | some (.invalid _) => .error (.storage .corruptedBackupHint)
  | some (.json .null) => .error (.storage .readFailed)
  | some (.json j) =>
    if !jsIsArray (jsProp j "tasks") || !jsIsNumber (jsProp j "nextId") then
      .error (.storage .malformedData)
    else .ok j

/-- One engine call in a create/delete interleaving. -/
inductive EngineOp
  | create (input : CreateTaskInput) (now : Str)
  | delete (id : Int)

/-- The observable outcome of one successful engine call. -/
inductive EngineEvent
  | created (id : Int)
  | deleted (id : Int)
deriving DecidableEq

/-- Run one engine call against the database; a faulted call leaves the
database unchanged and produces no event. -/
def stepOp (db : TaskDatabase) : EngineOp → TaskDatabase × Option EngineEvent
  | .create input now =>
    match createTask input now db with
    | .ok (t, db2) => (db2, some (.created t.id))
    | .error _ => (db, none)
  | .delete id =>
    match deleteTask id db with
    | .ok db2 => (db2, some (.deleted id))
    | .error _ => (db, none)

/-- Run a sequence of engine calls, collecting the events of the successful
ones in order. -/
def runOps (db : TaskDatabase) : List EngineOp → TaskDatabase × List EngineEvent
  | [] => (db, [])
  | op :: ops =>
    let r1 := stepOp db op
    let r2 := runOps r1.1 ops
    (r2.1, r1.2.toList ++ r2.2)

/-- The empty database created the first time the store is needed. -/
def emptyDb : TaskDatabase := { tasks := [], nextId := 1 }

/-- The ids returned by the successful creations, in call order. -/
def createdIds (evs : List EngineEvent) : List Int :=
  evs.filterMap (fun e => match e with | .created k => some k | .deleted _ => none)

/-- The id carried by an event. -/
def eventId : EngineEvent → Int
  | .created k => k
  | .deleted k => k

/-- The database invariant tying ids to the counter: every stored id is below
nextId. -/
def InvDb (db : TaskDatabase) : Prop := ∀ t ∈ db.tasks, t.id < db.nextId

/-- A fixed timestamp for concrete instances. -/
def sampleNow : Str := jstr "2025-01-15T10:30:00.000Z"

/-- A concrete open task. -/
def sampleTask1 : Task :=
  { id := 1, title := jstr "Implement Auth", description := none,
    status := .«open», branch := none, createdAt := sampleNow, updatedAt := sampleNow }

/-- A concrete archived task. -/
def sampleTask2 : Task :=
  { id := 2, title := jstr "Old", description := none,
    status := .archived, branch := none, createdAt := sampleNow, updatedAt := sampleNow }

/-- A concrete database holding one open and one archived task. -/
def sampleDb : TaskDatabase := { tasks := [sampleTask1, sampleTask2], nextId := 3 }

/-- Structural round trip of one task through its JSON encoding. -/
theorem decodeTask_encodeTask (t : Task) : decodeTask (encodeTask t) = some t := by
  obtain ⟨i, ti, dsc, st, br, ca, ua⟩ := t
  cases dsc <;> cases br <;> cases st <;> rfl

/-- Structural round trip of a task list through its JSON encoding. -/
theorem mapM_decodeTask_encodeTask (ts : List Task) :
    (ts.map encodeTask).mapM decodeTask = some ts := by
  induction ts with
  | nil => rfl
  | cons t ts ih =>
    rw [List.map_cons, List.mapM_cons, decodeTask_encodeTask, ih]
    rfl

/-- C2: after any save on a store whose primary file previously held content X,
the backup file holds exactly X; the save is the primary write applied after
the backup step, and the backup step leaves the primary file untouched. -/
theorem save_backs_up_previous_primary (db : TaskDatabase) (s : Store)
    (X : FileContent) (h : s.primary = some X) :
    (saveFS db s).backup = some X ∧
    (backupStep (initializeDir s)).primary = s.primary ∧
    (backupStep (initializeDir s)).backup = some X ∧
    saveFS db s =
      { backupStep (initializeDir s) with primary := some (.json (encodeDb db)) } := by
  have he : existsFile (initializeDir s) = true := by
    simp [existsFile, initializeDir, h]
  refine ⟨?_, ?_, ?_, ?_⟩ <;>
    simp [saveFS, backupStep, initializeDir, existsFile, h]

/-- Closed instance of the C2 backup invariant. -/
theorem save_backs_up_previous_primary_witness :
    (saveFS sampleDb ⟨true, some (.json (Json.num 0)), none⟩).backup =
      some (.json (Json.num 0)) :=
  (save_backs_up_previous_primary sampleDb ⟨true, some (.json (Json.num 0)), none⟩
    (.json (Json.num 0)) rfl).1

/-- C3: save followed by load returns exactly the serialized database, and
that JSON decodes structurally to the saved database: same tasks with the
same fields in the same order and the same nextId. -/
theorem save_load_roundtrip (db : TaskDatabase) (s : Store) :
    loadFS (saveFS db s) = .ok (encodeDb db) ∧
    decodeDb (encodeDb db) = some db := by
  constructor
  · rfl
  · show ((db.tasks.map encodeTask).mapM decodeTask).map
        (fun ts => ({ tasks := ts, nextId := db.nextId } : TaskDatabase)) = some db
    rw [mapM_decodeTask_encodeTask]
    rfl

set_option maxRecDepth 4000 in
/-- C1 counterexample: the title made of one space followed by two hundred
letters is nonempty and exactly 200 characters long after trimming, so the
claim says creation succeeds, yet createTask raises the too-long
ValidationError because the length check runs on the untrimmed title. -/
theorem createTask_trimmed_length_counterexample :
    createTask ⟨' ' :: List.replicate 200 'a', none⟩ sampleNow emptyDb =
      .error (.validation msgTitleTooLong) ∧
    jsTrim (' ' :: List.replicate 200 'a') ≠ [] ∧
    jsLength (jsTrim (' ' :: List.replicate 200 'a')) = 200 := by
  refine ⟨rfl, ?_, ?_⟩ <;> decide

/-- C1 (amended): createTask raises a ValidationError exactly when the title
is empty after trimming or the untrimmed title is longer than 200 characters,
and updateTask applies the same rule to a supplied title once the target id
exists; the spec's boundary examples follow since they involve no
leading or trailing whitespace. -/
theorem createTask_validation_rule (t : Str) (d : Option Str) (now : Str)
    (db : TaskDatabase) :
    ((∃ m, createTask ⟨t, d⟩ now db = .error (.validation m)) ↔
      (jsTrim t = [] ∨ 200 < jsLength t)) ∧
    ∀ (id : Int) (input : UpdateTaskInput), input.title = some t →
      (db.tasks.findIdx? (fun tk => tk.id == id)).isSome →
      ((∃ m, updateTask id input now db = .error (.validation m)) ↔
        (jsTrim t = [] ∨ 200 < jsLength t)) := by
  have hzero : ∀ x : Str, jsLength x = 0 ↔ x = [] := by
    intro x
    cases x with
    | nil => simp [jsLength]
    | cons c cs =>
      simp only [jsLength, List.map_cons, List.sum_cons]
      constructor
      · intro h
        split at h <;> omega
      · intro h
        cases h
  have hempty : (t = [] ∨ jsLength (jsTrim t) = 0) ↔ jsTrim t = [] := by
    rw [hzero]
    constructor
    · rintro (rfl | h)
      · rfl
      · exact h
    · intro h
      exact Or.inr h
  constructor
  · rw [createTask]
    split
    · rename_i hcond
      simp only [hempty] at hcond
      simp [hcond]
    · rename_i hcond
      rw [← hempty] at *
      split
      · rename_i hlen
        simp only [hcond, false_or]
        exact ⟨fun _ => hlen, fun _ => ⟨msgTitleTooLong, rfl⟩⟩
      · rename_i hlen
        simp only [hcond, false_or]
        constructor
        · rintro ⟨m, hm⟩
          exact absurd hm (by simp)
        · intro h
          exact absurd h hlen
  · intro id input hti hsome
    obtain ⟨j, hj⟩ := Option.isSome_iff_exists.mp hsome
    have hjlt : j < db.tasks.length := (List.findIdx?_eq_some_iff_getElem.mp hj).1
    have hget : db.tasks[j]? = some db.tasks[j] := List.getElem?_eq_getElem hjlt
    rw [updateTask, hj]
    simp only [hget, hti]
    split
    · rename_i hcond
      simp only [hempty] at hcond
      simp [hcond]
    · rename_i hcond
      rw [← hempty] at *
      split
      · rename_i hlen
        simp only [hcond, false_or]
        exact ⟨fun _ => hlen, fun _ => ⟨msgTitleTooLong, rfl⟩⟩
      · rename_i hlen
        simp only [hcond, false_or]
        constructor
        · rintro ⟨m, hm⟩
          exact absurd hm (by simp)
        · intro h
          exact absurd h hlen

/-- Closed instance of the amended C1 rule: a one-letter title passes
validation in both createTask and updateTask against the sample database. -/
theorem createTask_validation_rule_witness :
    (¬∃ m, createTask ⟨['a'], none⟩ sampleNow sampleDb = .error (.validation m)) ∧
    ¬∃ m, updateTask 1 ⟨some ['a'], none, none, none⟩ sampleNow sampleDb =
      .error (.validation m) := by
  constructor
  · rw [(createTask_validation_rule ['a'] none sampleNow sampleDb).1]
    decide
  · rw [(createTask_validation_rule ['a'] none sampleNow sampleDb).2 1
      ⟨some ['a'], none, none, none⟩ rfl (by decide)]
    decide

/-- C5 counterexample: a primary file whose text parses to JSON null makes
load raise the generic read-failure StorageError, not the malformed-data
fault the claim requires for a parsed value whose tasks is not a collection
(in JS, reading the tasks property of null throws a TypeError which the
catch-all branch converts); and a file whose top-level shape passes the
check is returned as is even when its tasks elements are not tasks at all,
so load can return garbage data. -/
theorem load_case_analysis_counterexample :
    loadFS ⟨true, some (.json .null), none⟩ = .error (.storage .readFailed) ∧
    Fault.storage .readFailed ≠ .storage .malformedData ∧
    loadFS ⟨true, some (.json (.obj [("tasks", Json.arr [Json.num 42]),
        ("nextId", Json.num 1)])), none⟩ =
      .ok (.obj [("tasks", Json.arr [Json.num 42]), ("nextId", Json.num 1)]) ∧
    decodeDb (.obj [("tasks", Json.arr [Json.num 42]), ("nextId", Json.num 1)]) =
      none := by
  refine ⟨rfl, ?_, rfl, rfl⟩
  decide

/-- C5 (amended): load performs exactly this case analysis: an absent primary
file yields the fresh empty database with no fault and, by its read-only
type, no write; an unparseable file yields the corruption fault whose
message names the backup file; a file parsing to JSON null yields the
generic storage read fault because the structural check's property access
throws; any other parse whose tasks is not an array or whose nextId is not a
number yields the malformed-data fault; otherwise the parsed value is
returned unvalidated below the top level. -/
theorem load_case_analysis (s : Store) :
    (s.primary = none → loadFS s = .ok emptyDbJson) ∧
    (∀ raw, s.primary = some (.invalid raw) →
      loadFS s = .error (.storage .corruptedBackupHint)) ∧
    (s.primary = some (.json .null) → loadFS s = .error (.storage .readFailed)) ∧
    (∀ j, s.primary = some (.json j) → j ≠ .null →
      (jsIsArray (jsProp j "tasks") = false ∨ jsIsNumber (jsProp j "nextId") = false) →
      loadFS s = .error (.storage .malformedData)) ∧
    (∀ j, s.primary = some (.json j) →
      jsIsArray (jsProp j "tasks") = true → jsIsNumber (jsProp j "nextId") = true →
      loadFS s = .ok j) := by
  obtain ⟨d, p, b⟩ := s
  refine ⟨?_, ?_, ?_, ?_, ?_⟩
  · rintro rfl
    rfl
  · rintro raw rfl
    rfl
  · rintro rfl
    rfl
  · rintro j rfl hnull hshape
    show loadFS ⟨d, some (.json j), b⟩ = _
    cases j with
    | null => exact absurd rfl hnull
    | bool v => rw [loadFS]; rcases hshape with h | h <;> simp [h]
    | num v => rw [loadFS]; rcases hshape with h | h <;> simp [h]
    | str v => rw [loadFS]; rcases hshape with h | h <;> simp [h]
    | arr v => rw [loadFS]; rcases hshape with h | h <;> simp [h]
    | obj v => rw [loadFS]; rcases hshape with h | h <;> simp [h]
  · rintro j rfl ha hn
    show loadFS ⟨d, some (.json j), b⟩ = _
    cases j with
    | null => simp [jsProp, jsIsArray] at ha
    | bool v => simp [jsProp, jsIsArray] at ha
    | num v => simp [jsProp, jsIsArray] at ha
    | str v => simp [jsProp, jsIsArray] at ha
    | arr v => simp [jsProp, jsIsArray] at ha
    | obj v => rw [loadFS]; simp [ha, hn]

/-- Closed instance of the amended C5 case analysis: a parsed top level that
is a bare number is rejected as malformed data. -/
theorem load_case_analysis_witness :
    loadFS ⟨true, some (.json (.num 42)), none⟩ =
      .error (.storage .malformedData) :=
  (load_case_analysis ⟨true, some (.json (.num 42)), none⟩).2.2.2.1 (.num 42) rfl
    (fun h => nomatch h) (Or.inl rfl)

/-- C9: requesting the archived status while includeArchived is false (the
value an absent flag defaults to) always yields the empty list, and an
archived task is listed only when includeArchived is true. -/
theorem listTasks_archived_filter (db : TaskDatabase) :
    listTasks ⟨some TaskStatus.archived, false⟩ db = [] ∧
    ∀ (options : ListOptions) (t : Task),
      t ∈ listTasks options db → t.status = TaskStatus.archived →
      options.includeArchived = true := by
  constructor
  · rw [listTasks]
    simp only [Bool.false_eq_true, if_false, List.filter_filter]
    rw [List.filter_eq_nil_iff.mpr (fun t _ => by
      cases h : t.status == TaskStatus.archived <;> simp [h])]
    rfl
  · intro options t hmem hst
    cases hArch : options.includeArchived with
    | true => rfl
    | false =>
      exfalso
      rw [listTasks] at hmem
      simp only [hArch, Bool.false_eq_true, if_false] at hmem
      have := List.of_mem_filter ((List.mem_insertionSort taskIdLe).mp hmem)
      simp [hst] at this

/-- Closed instance of C9 at the sample database: the archived-status query
is empty, and the sample archived task is listed only with the flag on. -/
theorem listTasks_archived_filter_witness :
    listTasks ⟨some TaskStatus.archived, false⟩ sampleDb = [] ∧
    (⟨none, true⟩ : ListOptions).includeArchived = true :=
  ⟨(listTasks_archived_filter sampleDb).1,
    (listTasks_archived_filter sampleDb).2 ⟨none, true⟩ sampleTask2 (by decide)
      (by decide)⟩

/-- C10: a successful updateTask touches only the task at the found index:
nextId is unchanged, no task is added or removed, the new task list is the
old one with the updated task written at that index, and every other index
is untouched; changeStatus and archiveTask are literally updateTask calls. -/
theorem update_frame (id : Int) (input : UpdateTaskInput) (now : Str)
    (db : TaskDatabase) (t2 : Task) (db2 : TaskDatabase)
    (h : updateTask id input now db = .ok (t2, db2)) :
    db2.nextId = db.nextId ∧ db2.tasks.length = db.tasks.length ∧
    (∃ j, db.tasks.findIdx? (fun tk => tk.id == id) = some j ∧
      (∃ hj : j < db.tasks.length, (db.tasks[j]).id = id) ∧
      db2.tasks = db.tasks.set j t2 ∧
      ∀ i, i ≠ j → db2.tasks[i]? = db.tasks[i]?) ∧
    (∀ st, changeStatus id st now db =
      updateTask id ⟨none, none, some st, none⟩ now db) ∧
    archiveTask id now db =
      updateTask id ⟨none, none, some TaskStatus.archived, none⟩ now db := by
  rw [updateTask] at h
  split at h
  · exact absurd h (by simp)
  · rename_i j hf
    split at h
    · exact absurd h (by simp)
    · rename_i task hg
      split at h
      · rename_i t hti
        split at h
        · exact absurd h (by simp)
        · split at h
          · exact absurd h (by simp)
          · simp only [Except.ok.injEq, Prod.mk.injEq] at h
            obtain ⟨ht, hdb⟩ := h
            subst ht
            subst hdb
            obtain ⟨hjlt, hjp, _⟩ := List.findIdx?_eq_some_iff_getElem.mp hf
            exact ⟨rfl, by simp, ⟨j, hf, ⟨hjlt, by simpa using hjp⟩, rfl,
              fun i hij => List.getElem?_set_ne (Ne.symm hij)⟩, fun st => rfl, rfl⟩
      · simp only [Except.ok.injEq, Prod.mk.injEq] at h
        obtain ⟨ht, hdb⟩ := h
        subst ht
        subst hdb
        obtain ⟨hjlt, hjp, _⟩ := List.findIdx?_eq_some_iff_getElem.mp hf
        exact ⟨rfl, by simp, ⟨j, hf, ⟨hjlt, by simpa using hjp⟩, rfl,
          fun i hij => List.getElem?_set_ne (Ne.symm hij)⟩, fun st => rfl, rfl⟩

/-- Closed instance of C10: completing the sample open task leaves nextId at
its prior value. -/
theorem update_frame_witness :
    (TaskDatabase.mk [Task.mk 1 (jstr "Implement Auth") none TaskStatus.completed
        none sampleNow sampleNow, sampleTask2] 3).nextId = sampleDb.nextId :=
  (update_frame 1 ⟨none, none, some TaskStatus.completed, none⟩ sampleNow sampleDb
    (Task.mk 1 (jstr "Implement Auth") none TaskStatus.completed none sampleNow
      sampleNow)
    (TaskDatabase.mk [Task.mk 1 (jstr "Implement Auth") none TaskStatus.completed
        none sampleNow sampleNow, sampleTask2] 3) (by rfl)).1

/-- Shape of a successful creation: the new task gets the current counter as
id, the counter advances by one, and the task is appended. -/
theorem createTask_ok_shape (input : CreateTaskInput) (now : Str)
    (db : TaskDatabase) (t : Task) (db2 : TaskDatabase)
    (h : createTask input now db = .ok (t, db2)) :
    t.id = db.nextId ∧ db2.nextId = db.nextId + 1 ∧ db2.tasks = db.tasks ++ [t] := by
  rw [createTask] at h
  split at h
  · exact absurd h (by simp)
  · split at h
    · exact absurd h (by simp)
    · simp only [Except.ok.injEq, Prod.mk.injEq] at h
      obtain ⟨ht, hdb⟩ := h
      subst ht
      subst hdb
      exact ⟨rfl, rfl, rfl⟩

/-- Shape of a successful deletion: the counter is unchanged, the located
task is spliced out, and the located task carried the requested id. -/
theorem deleteTask_ok_shape (id : Int) (db : TaskDatabase) (db2 : TaskDatabase)
    (h : deleteTask id db = .ok db2) :
    ∃ j, db.tasks.findIdx? (fun tk => tk.id == id) = some j ∧
      db2.nextId = db.nextId ∧ db2.tasks = db.tasks.eraseIdx j ∧
      ∃ hj : j < db.tasks.length, (db.tasks[j]).id = id := by
  rw [deleteTask] at h
  split at h
  · exact absurd h (by simp)
  · rename_i j hf
    simp only [Except.ok.injEq] at h
    subst h
    obtain ⟨hlt, hp, _⟩ := List.findIdx?_eq_some_iff_getElem.mp hf
    refine ⟨j, hf, rfl, rfl, hlt, ?_⟩
    simpa using hp

/-- One engine step preserves the id/counter invariant, never decreases the
counter, reports the assigned id on creation (equal to the old counter, which
then advances by one), and only ever deletes an id below the counter. -/
theorem stepOp_spec (db : TaskDatabase) (hInv : InvDb db) (op : EngineOp) :
    InvDb (stepOp db op).1 ∧ db.nextId ≤ (stepOp db op).1.nextId ∧
    ((stepOp db op).2 = none → (stepOp db op).1 = db) ∧
    (∀ k, (stepOp db op).2 = some (.created k) →
      k = db.nextId ∧ (stepOp db op).1.nextId = db.nextId + 1) ∧
    (∀ k, (stepOp db op).2 = some (.deleted k) →
      k < db.nextId ∧ (stepOp db op).1.nextId = db.nextId) := by
  cases op with
  | create input now =>
    cases hc : createTask input now db with
    | error e =>
      have hs : stepOp db (.create input now) = (db, none) := by rw [stepOp, hc]
      rw [hs]
      exact ⟨hInv, le_refl _, fun _ => rfl, by simp, by simp⟩
    | ok pair =>
      obtain ⟨t, db2⟩ := pair
      have hs : stepOp db (.create input now) = (db2, some (.created t.id)) := by
        rw [stepOp, hc]
      rw [hs]
      obtain ⟨hid, hnext, htasks⟩ := createTask_ok_shape input now db t db2 hc
      refine ⟨?_, ?_, by simp, ?_, by simp⟩
      · intro x hx
        rw [htasks] at hx
        rw [hnext]
        rcases List.mem_append.mp hx with hx | hx
        · exact lt_trans (hInv x hx) (by omega)
        · have hxt : x = t := by simpa using hx
          rw [hxt, hid]
          omega
      · rw [hnext]
        omega
      · intro k hk
        simp only [Option.some.injEq, EngineEvent.created.injEq] at hk
        rw [← hk, hid, hnext]
        exact ⟨rfl, rfl⟩
  | delete id =>
    cases hc : deleteTask id db with
    | error e =>
      have hs : stepOp db (.delete id) = (db, none) := by rw [stepOp, hc]
      rw [hs]
      exact ⟨hInv, le_refl _, fun _ => rfl, by simp, by simp⟩
    | ok db2 =>
      have hs : stepOp db (.delete id) = (db2, some (.deleted id)) := by
        rw [stepOp, hc]
      rw [hs]
      obtain ⟨j, hf, hnext, htasks, hjlt, hjid⟩ := deleteTask_ok_shape id db db2 hc
      have hidlt : id < db.nextId := by
        rw [← hjid]
        exact hInv _ (db.tasks.getElem_mem hjlt)
      refine ⟨?_, by rw [hnext], by simp, by simp, ?_⟩
      · intro x hx
        rw [htasks] at hx
        rw [hnext]
        exact hInv x ((db.tasks.eraseIdx_sublist j).mem hx)
      · intro k hk
        simp only [Option.some.injEq, EngineEvent.deleted.injEq] at hk
        rw [← hk, hnext]
        exact ⟨hidlt, rfl⟩

/-- Run-level invariant for create/delete interleavings: the id/counter
invariant is preserved, the counter never decreases and advances exactly once
per successful creation, every created id is at least the starting counter,
every event id stays below the final counter, and every event strictly
precedes (by id) every later creation. -/
theorem runOps_master (ops : List EngineOp) :
    ∀ db : TaskDatabase, InvDb db →
      InvDb (runOps db ops).1 ∧
      db.nextId ≤ (runOps db ops).1.nextId ∧
      (runOps db ops).1.nextId =
        db.nextId + ((createdIds (runOps db ops).2).length : Int) ∧
      (∀ k, EngineEvent.created k ∈ (runOps db ops).2 → db.nextId ≤ k) ∧
      (∀ e ∈ (runOps db ops).2, eventId e < (runOps db ops).1.nextId) ∧
      List.Pairwise (fun a b => ∀ k, b = EngineEvent.created k → eventId a < k)
        (runOps db ops).2 := by
  induction ops with
  | nil =>
    intro db hInv
    exact ⟨hInv, le_refl _, by simp [runOps, createdIds], by simp [runOps],
      by simp [runOps], by simp [runOps]⟩
  | cons op ops ih =>
    intro db hInv
    obtain ⟨hInv1, hle1, hnone, hcreated, hdeleted⟩ := stepOp_spec db hInv op
    obtain ⟨ihInv, ihle, ihcount, ihclb, ihub, ihpw⟩ := ih (stepOp db op).1 hInv1
    have hfst : (runOps db (op :: ops)).1 = (runOps (stepOp db op).1 ops).1 := rfl
    have hsnd : (runOps db (op :: ops)).2 =
        (stepOp db op).2.toList ++ (runOps (stepOp db op).1 ops).2 := rfl
    rw [hfst, hsnd]
    cases hev : (stepOp db op).2 with
    | none =>
      have hdb1 : (stepOp db op).1 = db := hnone hev
      rw [hdb1] at ihInv ihle ihcount ihclb ihub ihpw ⊢
      simpa using ⟨ihInv, ihle, ihcount, ihclb, ihub, ihpw⟩
    | some e =>
      cases e with
      | created k =>
        obtain ⟨hkid, hnext1⟩ := hcreated k hev
        refine ⟨ihInv, le_trans hle1 ihle, ?_, ?_, ?_, ?_⟩
        · have : createdIds (EngineEvent.created k :: (runOps (stepOp db op).1 ops).2)
              = k :: createdIds (runOps (stepOp db op).1 ops).2 := rfl
          simp only [Option.toList_some, List.singleton_append, this,
            List.length_cons]
          rw [ihcount, hnext1]
          push_cast
          omega
        · intro m hm
          simp only [Option.toList_some, List.singleton_append, List.mem_cons] at hm
          rcases hm with hm | hm
          · simp only [EngineEvent.created.injEq] at hm
            rw [hm, hkid]
          · exact le_trans hle1 (ihclb m hm)
        · intro e he
          simp only [Option.toList_some, List.singleton_append, List.mem_cons] at he
          rcases he with rfl | he
          · show k < (runOps (stepOp db op).1 ops).1.nextId
            calc k = db.nextId := hkid
            _ < db.nextId + 1 := by omega
            _ = (stepOp db op).1.nextId := hnext1.symm
            _ ≤ _ := ihle
          · exact ihub e he
        · simp only [Option.toList_some, List.singleton_append]
          refine List.Pairwise.cons ?_ ihpw
          intro b hb m hbm
          have hmlb : (stepOp db op).1.nextId ≤ m := ihclb m (by rw [← hbm]; exact hb)
          show eventId (EngineEvent.created k) < m
          rw [eventId, hkid]
          rw [hnext1] at hmlb
          omega
      | deleted k =>
        obtain ⟨hklt, hnext1⟩ := hdeleted k hev
        refine ⟨ihInv, le_trans hle1 ihle, ?_, ?_, ?_, ?_⟩
        · have : createdIds (EngineEvent.deleted k :: (runOps (stepOp db op).1 ops).2)
              = createdIds (runOps (stepOp db op).1 ops).2 := rfl
          simp only [Option.toList_some, List.singleton_append, this]
          rw [ihcount, hnext1]
        · intro m hm
          simp only [Option.toList_some, List.singleton_append, List.mem_cons] at hm
          rcases hm with hm | hm
          · exact absurd hm (by simp)
          · exact le_trans hle1 (ihclb m hm)
        · intro e he
          simp only [Option.toList_some, List.singleton_append, List.mem_cons] at he
          rcases he with rfl | he
          · show k < (runOps (stepOp db op).1 ops).1.nextId
            calc k < db.nextId := hklt
            _ ≤ (stepOp db op).1.nextId := hle1
            _ ≤ _ := ihle
          · exact ihub e he
        · simp only [Option.toList_some, List.singleton_append]
          refine List.Pairwise.cons ?_ ihpw
          intro b hb m hbm
          have hmlb : (stepOp db op).1.nextId ≤ m := ihclb m (by rw [← hbm]; exact hb)
          show eventId (EngineEvent.deleted k) < m
          rw [eventId]
          rw [hnext1] at hmlb
          omega

/-- C4: over every create/delete interleaving from the empty database, the
ids returned by successful creations are pairwise distinct and strictly
increasing in call order; nextId starts at 1 and advances exactly once per
successful creation, never decreasing; it strictly bounds every id still
present and every id that ever appeared in an event (created or deleted);
and an id removed by a deletion is never assigned by a later creation. -/
theorem create_delete_id_monotonicity (ops : List EngineOp) :
    List.Pairwise (fun a b : Int => a < b) (createdIds (runOps emptyDb ops).2) ∧
    (runOps emptyDb ops).1.nextId =
      1 + ((createdIds (runOps emptyDb ops).2).length : Int) ∧
    (∀ t ∈ (runOps emptyDb ops).1.tasks, t.id < (runOps emptyDb ops).1.nextId) ∧
    (∀ e ∈ (runOps emptyDb ops).2, eventId e < (runOps emptyDb ops).1.nextId) ∧
    List.Pairwise
      (fun a b => ∀ k, a = EngineEvent.deleted k → b ≠ EngineEvent.created k)
      (runOps emptyDb ops).2 := by
  have hInv0 : InvDb emptyDb := by
    intro t ht
    exact absurd ht (List.not_mem_nil t)
  obtain ⟨hInv, _, hcount, _, hub, hpw⟩ := runOps_master ops emptyDb hInv0
  refine ⟨?_, hcount, hInv, hub, ?_⟩
  · refine List.Pairwise.filterMap _ ?_ hpw
    intro a b hrel x hx y hy
    cases a with
    | created ka =>
      simp only [Option.mem_def, Option.some.injEq] at hx
      cases b with
      | created kb =>
        simp only [Option.mem_def, Option.some.injEq] at hy
        have := hrel kb rfl
        rw [eventId] at this
        omega
      | deleted kb => simp at hy
    | deleted ka => simp at hx
  · refine hpw.imp ?_
    intro a b hrel k hak hbk
    have := hrel k hbk
    rw [hak, eventId] at this
    omega

/-- Closed instance of C4 on a concrete create, delete, create sequence. -/
theorem create_delete_id_monotonicity_witness :
    List.Pairwise (fun a b : Int => a < b)
      (createdIds (runOps emptyDb [EngineOp.create ⟨jstr "a", none⟩ sampleNow,
        EngineOp.delete 1, EngineOp.create ⟨jstr "b", none⟩ sampleNow]).2) ∧
    (runOps emptyDb [EngineOp.create ⟨jstr "a", none⟩ sampleNow,
        EngineOp.delete 1, EngineOp.create ⟨jstr "b", none⟩ sampleNow]).1.nextId =
      1 + ((createdIds (runOps emptyDb [EngineOp.create ⟨jstr "a", none⟩ sampleNow,
        EngineOp.delete 1, EngineOp.create ⟨jstr "b", none⟩ sampleNow]).2).length : Int) ∧
    (∀ t ∈ (runOps emptyDb [EngineOp.create ⟨jstr "a", none⟩ sampleNow,
        EngineOp.delete 1, EngineOp.create ⟨jstr "b", none⟩ sampleNow]).1.tasks,
      t.id < (runOps emptyDb [EngineOp.create ⟨jstr "a", none⟩ sampleNow,
        EngineOp.delete 1, EngineOp.create ⟨jstr "b", none⟩ sampleNow]).1.nextId) ∧
    (∀ e ∈ (runOps emptyDb [EngineOp.create ⟨jstr "a", none⟩ sampleNow,
        EngineOp.delete 1, EngineOp.create ⟨jstr "b", none⟩ sampleNow]).2,
      eventId e < (runOps emptyDb [EngineOp.create ⟨jstr "a", none⟩ sampleNow,
        EngineOp.delete 1, EngineOp.create ⟨jstr "b", none⟩ sampleNow]).1.nextId) ∧
    List.Pairwise
      (fun a b => ∀ k, a = EngineEvent.deleted k → b ≠ EngineEvent.created k)
      (runOps emptyDb [EngineOp.create ⟨jstr "a", none⟩ sampleNow,
        EngineOp.delete 1, EngineOp.create ⟨jstr "b", none⟩ sampleNow]).2 :=
  create_delete_id_monotonicity [EngineOp.create ⟨jstr "a", none⟩ sampleNow,
    EngineOp.delete 1, EngineOp.create ⟨jstr "b", none⟩ sampleNow]

/-- Arithmetic normal form of the JS whitespace test. -/
theorem isJsSpace_iff (c : Char) : isJsSpace c = true ↔
    (c.toNat = 0x9 ∨ c.toNat = 0xA ∨ c.toNat = 0xB ∨ c.toNat = 0xC ∨
     c.toNat = 0xD ∨ c.toNat = 0x20 ∨ c.toNat = 0xA0 ∨ c.toNat = 0x1680 ∨
     (0x2000 ≤ c.toNat ∧ c.toNat ≤ 0x200A) ∨ c.toNat = 0x2028 ∨
     c.toNat = 0x2029 ∨ c.toNat = 0x202F ∨ c.toNat = 0x205F ∨
     c.toNat = 0x3000 ∨ c.toNat = 0xFEFF) := by
  simp [isJsSpace]
  tauto

/-- Arithmetic normal form of the sanitizer keep set. -/
theorem isLowerKeep_iff (c : Char) : isLowerKeep c = true ↔
    ((97 ≤ c.toNat ∧ c.toNat ≤ 122) ∨ (48 ≤ c.toNat ∧ c.toNat ≤ 57) ∨
     c.toNat = 45) := by
  simp [isLowerKeep]
  tauto

/-- Arithmetic normal form of the ASCII alphanumeric test. -/
theorem isAsciiAlnum_iff (c : Char) : isAsciiAlnum c = true ↔
    ((65 ≤ c.toNat ∧ c.toNat ≤ 90) ∨ (97 ≤ c.toNat ∧ c.toNat ≤ 122) ∨
     (48 ≤ c.toNat ∧ c.toNat ≤ 57)) := by
  simp [isAsciiAlnum]
  tauto

/-- Arithmetic normal form of the hyphen test. -/
theorem isHy_iff_toNat (c : Char) : isHy c = true ↔ c.toNat = 45 := by
  simp [isHy]

/-- The hyphen test holds exactly for the hyphen character. -/
theorem isHy_iff (c : Char) : isHy c = true ↔ c = '-' := by
  rw [isHy_iff_toNat]
  constructor
  · intro h
    have := congrArg Char.ofNat h
    rwa [Char.ofNat_toNat] at this
  · rintro rfl
    rfl

/-- Value of the packed character below the surrogate range. -/
theorem toNat_ofNat_valid (n : Nat) (h : n < 0xD800) : (Char.ofNat n).toNat = n := by
  have hv : n.isValidChar := Or.inl h
  rw [Char.ofNat, dif_pos hv, Char.ofNatAux]
  simp [Char.toNat, UInt32.toNat]

/-- Kept characters are not JS whitespace. -/
theorem keep_not_space (c : Char) (h : isLowerKeep c = true) : isJsSpace c = false := by
  rw [isLowerKeep_iff] at h
  rw [← Bool.not_eq_true, isJsSpace_iff]
  omega

/-- Kept characters are fixed by the lowercase map. -/
theorem keep_lower_fixed (c : Char) (h : isLowerKeep c = true) :
    jsToLowerChar c = [c] := by
  rw [isLowerKeep_iff] at h
  rw [jsToLowerChar]
  have h1 : (decide (65 ≤ c.toNat) && decide (c.toNat ≤ 90)) = false := by
    simp only [Bool.and_eq_false_iff, decide_eq_false_iff_not]
    omega
  have h2 : (c.toNat == 0x212A) = false := by
    simp only [beq_eq_false_iff_ne, ne_eq]
    omega
  have h3 : (c.toNat == 0x130) = false := by
    simp only [beq_eq_false_iff_ne, ne_eq]
    omega
  simp only [h1, h2, h3, Bool.false_eq_true, if_false]

/-- JS whitespace characters are fixed by the lowercase map. -/
theorem space_lower_fixed (c : Char) (h : isJsSpace c = true) :
    jsToLowerChar c = [c] := by
  rw [isJsSpace_iff] at h
  rw [jsToLowerChar]
  have h1 : (decide (65 ≤ c.toNat) && decide (c.toNat ≤ 90)) = false := by
    simp only [Bool.and_eq_false_iff, decide_eq_false_iff_not]
    omega
  have h2 : (c.toNat == 0x212A) = false := by
    simp only [beq_eq_false_iff_ne, ne_eq]
    omega
  have h3 : (c.toNat == 0x130) = false := by
    simp only [beq_eq_false_iff_ne, ne_eq]
    omega
  simp only [h1, h2, h3, Bool.false_eq_true, if_false]

/-- JS whitespace is never ASCII alphanumeric. -/
theorem space_not_alnum (c : Char) (h : isJsSpace c = true) :
    isAsciiAlnum c = false := by
  rw [isJsSpace_iff] at h
  rw [← Bool.not_eq_true, isAsciiAlnum_iff]
  omega

/-- No character produced by the lowercase map is an ASCII uppercase letter. -/
theorem lower_no_upper (c x : Char) (hx : x ∈ jsToLowerChar c) :
    ¬(65 ≤ x.toNat ∧ x.toNat ≤ 90) := by
  rw [jsToLowerChar] at hx
  split at hx
  · rename_i h
    simp only [Bool.and_eq_true, decide_eq_true_eq] at h
    simp only [List.mem_singleton] at hx
    subst hx
    rw [toNat_ofNat_valid _ (by omega)]
    omega
  · split at hx
    · simp only [List.mem_singleton] at hx
      subst hx
      decide
    · split at hx
      · simp only [List.mem_cons, List.mem_singleton] at hx
        rcases hx with rfl | rfl | hx
        · decide
        · decide
        · exact absurd hx (List.not_mem_nil x)
      · simp only [List.mem_singleton] at hx
        subst hx
        rename_i h _ _
        simp only [Bool.and_eq_true, decide_eq_true_eq, Bool.not_eq_true,
          Bool.not_eq_true, Bool.and_eq_false_iff, decide_eq_false_iff_not] at h
        intro hc
        exact h hc

/-- dropWhile is the identity when no element satisfies the predicate. -/
theorem dropWhile_eq_self_of_all_neg (p : Char → Bool) (l : Str)
    (h : ∀ c ∈ l, p c = false) : l.dropWhile p = l := by
  cases l with
  | nil => rfl
  | cons x xs =>
    rw [List.dropWhile_cons, h x (List.mem_cons_self x xs)]
    simp

/-- dropWhile is the identity when the head does not satisfy the predicate. -/
theorem dropWhile_eq_self_of_head_neg (p : Char → Bool) (l : Str)
    (h : ∀ c, l.head? = some c → p c = false) : l.dropWhile p = l := by
  cases l with
  | nil => rfl
  | cons x xs =>
    rw [List.dropWhile_cons, h x rfl]
    simp

/-- An element not satisfying the predicate survives dropWhile. -/
theorem mem_dropWhile_of_neg (p : Char → Bool) (l : Str) (x : Char)
    (hx : x ∈ l) (hpx : p x = false) : x ∈ l.dropWhile p := by
  induction l with
  | nil => cases hx
  | cons y ys ih =>
    rw [List.dropWhile_cons]
    cases hpy : p y with
    | true =>
      simp only [if_true]
      rcases List.mem_cons.mp hx with rfl | hx2
      · rw [hpx] at hpy
        cases hpy
      · exact ih hx2
    | false =>
      simp only [Bool.false_eq_true, if_false]
      exact hx

/-- The head surviving dropWhile does not satisfy the predicate. -/
theorem head?_dropWhile_neg (p : Char → Bool) (l : Str) (c : Char)
    (h : (l.dropWhile p).head? = some c) : p c = false := by
  induction l with
  | nil => cases h
  | cons y ys ih =>
    rw [List.dropWhile_cons] at h
    cases hpy : p y with
    | true =>
      rw [hpy] at h
      simp only [if_true] at h
      exact ih h
    | false =>
      rw [hpy] at h
      simp only [Bool.false_eq_true, if_false, List.head?_cons,
        Option.some.injEq] at h
      rw [← h]
      exact hpy

/-- Stripping both ends yields the empty list exactly when every element
satisfies the predicate. -/
theorem ends_eq_nil_iff (p : Char → Bool) (l : Str) :
    ((l.dropWhile p).reverse.dropWhile p).reverse = [] ↔ ∀ c ∈ l, p c = true := by
  rw [List.reverse_eq_nil_iff, List.dropWhile_eq_nil_iff]
  constructor
  · intro h c hc
    have hsplit := List.takeWhile_append_dropWhile (p := p) (l := l)
    rw [← hsplit] at hc
    rcases List.mem_append.mp hc with hc | hc
    · exact List.mem_takeWhile_imp hc
    · exact h c (List.mem_reverse.mpr hc)
  · intro h x hx
    exact h x ((List.dropWhile_sublist p).mem (List.mem_reverse.mp hx))

/-- Stripping both ends is the identity when neither end satisfies the
predicate. -/
theorem ends_eq_self_of_ends_neg (p : Char → Bool) (l : Str)
    (hhead : ∀ c, l.head? = some c → p c = false)
    (hlast : ∀ c, l.getLast? = some c → p c = false) :
    ((l.dropWhile p).reverse.dropWhile p).reverse = l := by
  rw [dropWhile_eq_self_of_head_neg p l hhead,
    dropWhile_eq_self_of_head_neg p l.reverse
      (fun c hc => hlast c (by rwa [List.head?_reverse] at hc)),
    List.reverse_reverse]

/-- An element not satisfying the predicate survives stripping both ends. -/
theorem mem_ends_of_neg (p : Char → Bool) (l : Str) (x : Char)
    (hx : x ∈ l) (hpx : p x = false) :
    x ∈ ((l.dropWhile p).reverse.dropWhile p).reverse := by
  exact List.mem_reverse.mpr (mem_dropWhile_of_neg p _ x
    (List.mem_reverse.mpr (mem_dropWhile_of_neg p l x hx hpx)) hpx)

/-- Everything surviving the end strip came from the list. -/
theorem mem_of_mem_ends (p : Char → Bool) (l : Str) (x : Char)
    (hx : x ∈ ((l.dropWhile p).reverse.dropWhile p).reverse) : x ∈ l := by
  exact (List.dropWhile_sublist p).mem
    (List.mem_reverse.mp ((List.dropWhile_sublist p).mem (List.mem_reverse.mp hx)))

/-- The head after stripping both ends does not satisfy the predicate. -/
theorem head?_ends_neg (p : Char → Bool) (l : Str) (c : Char)
    (h : (((l.dropWhile p).reverse.dropWhile p).reverse).head? = some c) :
    p c = false := by
  have hpre : ((l.dropWhile p).reverse.dropWhile p).reverse <+: l.dropWhile p := by
    have := List.reverse_prefix.mpr (List.dropWhile_suffix (l := (l.dropWhile p).reverse) p)
    rwa [List.reverse_reverse] at this
  obtain ⟨t, ht⟩ := hpre
  cases he : ((l.dropWhile p).reverse.dropWhile p).reverse with
  | nil =>
    rw [he] at h
    cases h
  | cons e es =>
    rw [he] at h ht
    simp only [List.head?_cons, Option.some.injEq] at h
    subst h
    exact head?_dropWhile_neg p l _ (by rw [← ht]; rfl)

/-- The last element after stripping both ends does not satisfy the
predicate. -/
theorem getLast?_ends_neg (p : Char → Bool) (l : Str) (c : Char)
    (h : (((l.dropWhile p).reverse.dropWhile p).reverse).getLast? = some c) :
    p c = false := by
  rw [List.getLast?_reverse] at h
  exact head?_dropWhile_neg p (l.dropWhile p).reverse c h

/-- Stripping both ends never lengthens the list. -/
theorem length_ends_le (p : Char → Bool) (l : Str) :
    (((l.dropWhile p).reverse.dropWhile p).reverse).length ≤ l.length := by
  rw [List.length_reverse]
  calc ((l.dropWhile p).reverse.dropWhile p).length
      ≤ (l.dropWhile p).reverse.length := (List.dropWhile_sublist p).length_le
    _ = (l.dropWhile p).length := List.length_reverse _
    _ ≤ l.length := (List.dropWhile_sublist p).length_le

/-- Stripping both ends preserves a symmetric chain condition. -/
theorem chain'_ends (R : Char → Char → Prop) (hsym : ∀ a b, R a b → R b a)
    (p : Char → Bool) (l : Str) (h : List.Chain' R l) :
    List.Chain' R (((l.dropWhile p).reverse.dropWhile p).reverse) := by
  have h1 : List.Chain' R (l.dropWhile p) := h.suffix (List.dropWhile_suffix p)
  have h2 : List.Chain' R (l.dropWhile p).reverse := by
    rw [List.chain'_reverse]
    exact h1.imp (fun a b hab => hsym a b hab)
  have h3 : List.Chain' R ((l.dropWhile p).reverse.dropWhile p) :=
    h2.suffix (List.dropWhile_suffix p)
  rw [List.chain'_reverse]
  exact h3.imp (fun a b hab => hsym a b hab)

/-- Collapsing runs is the identity when no element satisfies the predicate. -/
theorem collapseAux_eq_self (p : Char → Bool) (r : Char) (l : Str)
    (h : ∀ c ∈ l, p c = false) : ∀ b, collapseAux p r b l = l := by
  induction l with
  | nil => intro b; rfl
  | cons x xs ih =>
    intro b
    rw [collapseAux, h x (List.mem_cons_self x xs)]
    simp only [Bool.false_eq_true, if_false, List.cons.injEq, true_and]
    exact ih (fun c hc => h c (List.mem_cons_of_mem x hc)) false

/-- Everything produced by collapsing runs is the replacement character or a
surviving original character. -/
theorem mem_collapseAux (p : Char → Bool) (r : Char) (l : Str) (x : Char) :
    ∀ b, x ∈ collapseAux p r b l → x = r ∨ x ∈ l := by
  induction l with
  | nil =>
    intro b hx
    cases hx
  | cons y ys ih =>
    intro b hx
    rw [collapseAux] at hx
    cases hpy : p y with
    | true =>
      rw [hpy] at hx
      simp only [if_true] at hx
      cases b with
      | true =>
        rcases ih true hx with h | h
        · exact Or.inl h
        · exact Or.inr (List.mem_cons_of_mem y h)
      | false =>
        rcases List.mem_cons.mp hx with rfl | hx2
        · exact Or.inl rfl
        · rcases ih true hx2 with h | h
          · exact Or.inl h
          · exact Or.inr (List.mem_cons_of_mem y h)
    | false =>
      rw [hpy] at hx
      simp only [Bool.false_eq_true, if_false] at hx
      rcases List.mem_cons.mp hx with rfl | hx2
      · exact Or.inr (List.mem_cons_self x ys)
      · rcases ih false hx2 with h | h
        · exact Or.inl h
        · exact Or.inr (List.mem_cons_of_mem y h)

/-- An element not satisfying the predicate survives collapsing runs. -/
theorem mem_collapseAux_of_neg (p : Char → Bool) (r : Char) (l : Str) (x : Char)
    (hx : x ∈ l) (hpx : p x = false) : ∀ b, x ∈ collapseAux p r b l := by
  induction l with
  | nil => cases hx
  | cons y ys ih =>
    intro b
    rw [collapseAux]
    rcases List.mem_cons.mp hx with rfl | hx2
    · rw [hpx]
      simp only [Bool.false_eq_true, if_false]
      exact List.mem_cons_self x (collapseAux p r false ys)
    · cases hpy : p y with
      | true =>
        simp only [if_true]
        cases b with
        | true => exact ih hx2 true
        | false => exact List.mem_cons_of_mem r (ih hx2 true)
      | false =>
        simp only [Bool.false_eq_true, if_false]
        exact List.mem_cons_of_mem y (ih hx2 false)

/-- In the in-run state, the first emitted character does not satisfy the
predicate. -/
theorem head?_collapseAux_true_neg (p : Char → Bool) (r : Char) (l : Str)
    (c : Char) (h : (collapseAux p r true l).head? = some c) : p c = false := by
  induction l with
  | nil => cases h
  | cons y ys ih =>
    rw [collapseAux] at h
    cases hpy : p y with
    | true =>
      rw [hpy] at h
      simp only [if_true] at h
      exact ih h
    | false =>
      rw [hpy] at h
      simp only [Bool.false_eq_true, if_false, List.head?_cons,
        Option.some.injEq] at h
      rw [← h]
      exact hpy

/-- Collapsing runs never leaves two adjacent characters that both satisfy
the predicate, provided the replacement itself satisfies it. -/
theorem chain'_collapseAux (p : Char → Bool) (r : Char) (l : Str) : ∀ b,
    List.Chain' (fun a c => p a = false ∨ p c = false) (collapseAux p r b l) := by
  induction l with
  | nil =>
    intro b
    exact List.chain'_nil
  | cons y ys ih =>
    intro b
    rw [collapseAux]
    cases hpy : p y with
    | true =>
      simp only [if_true]
      cases b with
      | true => exact ih true
      | false =>
        simp only [Bool.false_eq_true, if_false]
        rw [List.chain'_cons']
        refine ⟨?_, ih true⟩
        intro z hz
        exact Or.inr (head?_collapseAux_true_neg p r ys z hz)
    | false =>
      simp only [Bool.false_eq_true, if_false]
      rw [List.chain'_cons']
      refine ⟨?_, ih false⟩
      intro z _
      exact Or.inl hpy

/-- Collapsing hyphen runs is the identity on a list with no two adjacent
hyphens (out of a run; in a run, additionally when the head is not a
hyphen). -/
theorem collapseAux_hy_fix (l : Str)
    (hch : List.Chain' (fun a b => isHy a = false ∨ isHy b = false) l) :
    collapseAux isHy '-' false l = l ∧
    ((∀ c, l.head? = some c → isHy c = false) → collapseAux isHy '-' true l = l) := by
  induction l with
  | nil => exact ⟨rfl, fun _ => rfl⟩
  | cons x xs ih =>
    obtain ⟨ih1, ih2⟩ := ih hch.tail
    constructor
    · rw [collapseAux]
      cases hx : isHy x with
      | true =>
        have hxeq : x = '-' := (isHy_iff x).mp hx
        have hxs : ∀ c, xs.head? = some c → isHy c = false := by
          intro c hc
          rcases (List.chain'_cons'.mp hch).1 c hc with h | h
          · rw [hx] at h
            cases h
          · exact h
        simp only [if_true]
        rw [ih2 hxs, hxeq]
        simp
      | false =>
        simp only [Bool.false_eq_true, if_false, ih1]
    · intro hhead
      rw [collapseAux, hhead x rfl]
      simp only [Bool.false_eq_true, if_false, ih1]

/-- The lowercase map is the identity on strings all of whose characters it
fixes. -/
theorem jsToLower_eq_self (l : Str) (h : ∀ c ∈ l, jsToLowerChar c = [c]) :
    jsToLower l = l := by
  induction l with
  | nil => rfl
  | cons x xs ih =>
    rw [jsToLower, List.map_cons, List.flatten_cons, h x (List.mem_cons_self x xs)]
    have : jsToLower xs = xs := ih (fun c hc => h c (List.mem_cons_of_mem x hc))
    rw [jsToLower] at this
    rw [this]
    rfl

/-- Taking fifty elements keeps the head. -/
theorem head?_take_50 (l : Str) : (List.take 50 l).head? = l.head? := by
  cases l <;> rfl

/-- Every character of the pipeline output is in the keep set, no two
adjacent characters are both hyphens, neither end is a hyphen, and the
length is at most fifty. -/
theorem sanitizePipeline_good (s : Str) :
    (∀ c ∈ sanitizePipeline s, isLowerKeep c = true) ∧
    List.Chain' (fun a b => isHy a = false ∨ isHy b = false) (sanitizePipeline s) ∧
    (∀ c, (sanitizePipeline s).head? = some c → isHy c = false) ∧
    (∀ c, (sanitizePipeline s).getLast? = some c → isHy c = false) ∧
    (sanitizePipeline s).length ≤ 50 := by
  have hsym : ∀ a b : Char, (isHy a = false ∨ isHy b = false) →
      (isHy b = false ∨ isHy a = false) := fun a b h => h.symm
  refine ⟨?_, ?_, ?_, ?_, ?_⟩
  · intro c hc
    have hc3 : c ∈ collapseRuns isHy '-'
        (List.filter isLowerKeep (collapseRuns isJsSpace '-' (jsToLower s))) := by
      have hc4 := mem_of_mem_ends isHy _ c hc
      have hc5 := List.take_subset 50 _ hc4
      exact mem_of_mem_ends isHy _ c hc5
    rcases mem_collapseAux isHy '-' _ c false hc3 with rfl | hc6
    · decide
    · exact List.of_mem_filter hc6
  · have h3 : List.Chain' (fun a b => isHy a = false ∨ isHy b = false)
        (collapseRuns isHy '-'
          (List.filter isLowerKeep (collapseRuns isJsSpace '-' (jsToLower s)))) :=
      chain'_collapseAux isHy '-' _ false
    have h4 := chain'_ends _ hsym isHy _ h3
    have h5 := h4.prefix (List.take_prefix 50 _)
    exact chain'_ends _ hsym isHy _ h5
  · intro c hc
    exact head?_ends_neg isHy _ c hc
  · intro c hc
    exact getLast?_ends_neg isHy _ c hc
  · calc (sanitizePipeline s).length
        ≤ (List.take 50 (stripHyphens (collapseRuns isHy '-'
            (List.filter isLowerKeep
              (collapseRuns isJsSpace '-' (jsToLower s)))))).length :=
          length_ends_le isHy _
      _ ≤ 50 := by
          rw [List.length_take]
          omega

/-- The sanitizer is the identity on a nonempty string of keep characters
with no adjacent hyphens, hyphen-free ends, and length at most fifty. -/
theorem sanitize_fixed_of_good (l : Str) (hne : l ≠ [])
    (hkeep : ∀ c ∈ l, isLowerKeep c = true)
    (hch : List.Chain' (fun a b => isHy a = false ∨ isHy b = false) l)
    (hhead : ∀ c, l.head? = some c → isHy c = false)
    (hlast : ∀ c, l.getLast? = some c → isHy c = false)
    (hlen : l.length ≤ 50) :
    sanitizeForBranchName l = l := by
  have hnospace : ∀ c ∈ l, isJsSpace c = false :=
    fun c hc => keep_not_space c (hkeep c hc)
  have htrim : jsTrim l = l := by
    rw [jsTrim, dropWhile_eq_self_of_all_neg isJsSpace l hnospace,
      dropWhile_eq_self_of_all_neg isJsSpace l.reverse
        (fun c hc => hnospace c (List.mem_reverse.mp hc)),
      List.reverse_reverse]
  have hlow : jsToLower l = l :=
    jsToLower_eq_self l (fun c hc => keep_lower_fixed c (hkeep c hc))
  have hcw : collapseRuns isJsSpace '-' l = l :=
    collapseAux_eq_self isJsSpace '-' l hnospace false
  have hfil : List.filter isLowerKeep l = l := List.filter_eq_self.mpr hkeep
  have hchy : collapseRuns isHy '-' l = l := (collapseAux_hy_fix l hch).1
  have hstrip : stripHyphens l = l := ends_eq_self_of_ends_neg isHy l hhead hlast
  have htake : List.take 50 l = l := List.take_of_length_le hlen
  have hpipe : sanitizePipeline l = l := by
    rw [sanitizePipeline, hlow, hcw, hfil, hchy, hstrip, htake, hstrip]
  rw [sanitizeForBranchName, if_neg]
  · simp only [hpipe]
    rw [if_neg hne]
  · rw [htrim]
    rintro (h | h) <;> exact hne h

/-- The sanitizer either falls back to the literal untitled or returns its
nonempty pipeline output. -/
theorem sanitize_shape (s : Str) :
    sanitizeForBranchName s = untitledStr ∨
    (sanitizeForBranchName s = sanitizePipeline s ∧ sanitizePipeline s ≠ []) := by
  rw [sanitizeForBranchName]
  split
  · exact Or.inl rfl
  · cases hp : sanitizePipeline s with
    | nil => simp [hp]
    | cons c cs =>
      right
      constructor
      · simp [hp]
      · simp [hp]

/-- C7: the sanitizer is idempotent. -/
theorem sanitize_idempotent (s : Str) :
    sanitizeForBranchName (sanitizeForBranchName s) = sanitizeForBranchName s := by
  rcases sanitize_shape s with h | ⟨heq, hne⟩
  · rw [h]
    decide
  · rw [heq]
    obtain ⟨hkeep, hch, hhead, hlast, hlen⟩ := sanitizePipeline_good s
    exact sanitize_fixed_of_good (sanitizePipeline s) hne hkeep hch hhead hlast hlen

/-- A character of the lowercased string is never ASCII uppercase. -/
theorem lower_no_upper_of_mem (s : Str) (c : Char) (hc : c ∈ jsToLower s) :
    ¬(65 ≤ c.toNat ∧ c.toNat ≤ 90) := by
  rw [jsToLower] at hc
  obtain ⟨ld, hld, hcld⟩ := List.mem_flatten.mp hc
  obtain ⟨d, _, rfl⟩ := List.mem_map.mp hld
  exact lower_no_upper d c hcld

/-- The pipeline output is empty exactly when the lowercased input contains
no ASCII alphanumeric character. -/
theorem sanitizePipeline_eq_nil_iff (s : Str) :
    sanitizePipeline s = [] ↔ ∀ c ∈ jsToLower s, isAsciiAlnum c = false := by
  constructor
  · intro hp c hc
    cases halnum : isAsciiAlnum c with
    | false => rfl
    | true =>
      exfalso
      have hupper := lower_no_upper_of_mem s c hc
      have hkeep : isLowerKeep c = true := by
        rw [isLowerKeep_iff]
        rw [isAsciiAlnum_iff] at halnum
        omega
      have hnospace : isJsSpace c = false := keep_not_space c hkeep
      have hnohy : isHy c = false := by
        rw [← Bool.not_eq_true, isHy_iff_toNat]
        rw [isAsciiAlnum_iff] at halnum
        omega
      have hc1 : c ∈ collapseRuns isJsSpace '-' (jsToLower s) :=
        mem_collapseAux_of_neg isJsSpace '-' (jsToLower s) c hc hnospace false
      have hc2 : c ∈ List.filter isLowerKeep
          (collapseRuns isJsSpace '-' (jsToLower s)) :=
        List.mem_filter.mpr ⟨hc1, hkeep⟩
      have hc3 : c ∈ collapseRuns isHy '-' (List.filter isLowerKeep
          (collapseRuns isJsSpace '-' (jsToLower s))) :=
        mem_collapseAux_of_neg isHy '-' _ c hc2 hnohy false
      have hc4 : c ∈ stripHyphens (collapseRuns isHy '-' (List.filter isLowerKeep
          (collapseRuns isJsSpace '-' (jsToLower s)))) :=
        mem_ends_of_neg isHy _ c hc3 hnohy
      cases hx4 : stripHyphens (collapseRuns isHy '-' (List.filter isLowerKeep
          (collapseRuns isJsSpace '-' (jsToLower s)))) with
      | nil =>
        rw [hx4] at hc4
        cases hc4
      | cons h0 t0 =>
        have hh0 : isHy h0 = false := by
          apply head?_ends_neg isHy (collapseRuns isHy '-'
            (List.filter isLowerKeep (collapseRuns isJsSpace '-' (jsToLower s)))) h0
          show (stripHyphens (collapseRuns isHy '-' (List.filter isLowerKeep
            (collapseRuns isJsSpace '-' (jsToLower s))))).head? = some h0
          rw [hx4]
          rfl
        have hpipe : sanitizePipeline s =
            stripHyphens (List.take 50 (h0 :: t0)) := by
          rw [sanitizePipeline, hx4]
        rw [hpipe] at hp
        have : h0 ∈ List.take 50 (h0 :: t0) := by
          rw [List.take_cons]
          · exact List.mem_cons_self h0 _
          · omega
        have hall := (ends_eq_nil_iff isHy (List.take 50 (h0 :: t0))).mp hp
        rw [hall h0 this] at hh0
        cases hh0
  · intro h
    have hall3 : ∀ c ∈ collapseRuns isHy '-' (List.filter isLowerKeep
        (collapseRuns isJsSpace '-' (jsToLower s))), isHy c = true := by
      intro c hc3
      rcases mem_collapseAux isHy '-' _ c false hc3 with rfl | hc2
      · rfl
      · have hkeep := List.of_mem_filter hc2
        have hc1 := List.mem_of_mem_filter hc2
        rcases mem_collapseAux isJsSpace '-' _ c false hc1 with rfl | hc0
        · rfl
        · have halnum := h c hc0
          rw [isLowerKeep_iff] at hkeep
          rw [← Bool.not_eq_true, isAsciiAlnum_iff] at halnum
          rw [isHy_iff_toNat]
          omega
    have h4 : stripHyphens (collapseRuns isHy '-' (List.filter isLowerKeep
        (collapseRuns isJsSpace '-' (jsToLower s)))) = [] :=
      (ends_eq_nil_iff isHy _).mpr hall3
    rw [sanitizePipeline, h4]
    rfl

/-- The sanitizer returns the fallback on any input whose lowercased form
has no ASCII alphanumeric character. -/
theorem sanitize_untitled_of_no_alnum (s : Str)
    (h : (jsToLower s).all (fun c => !isAsciiAlnum c) = true) :
    sanitizeForBranchName s = untitledStr := by
  have h2 : ∀ c ∈ jsToLower s, isAsciiAlnum c = false := by
    intro c hc
    have := List.all_eq_true.mp h c hc
    simpa using this
  rw [sanitizeForBranchName]
  split
  · rfl
  · rw [(sanitizePipeline_eq_nil_iff s).mpr h2]
    rfl

/-- C6 counterexample: the claim's equivalence fails in both directions. The
title Untitled contains ASCII alphanumerics yet sanitizes to the literal
untitled; and U+212A KELVIN SIGN contains no ASCII alphanumeric yet
sanitizes to k, because JS lowercasing maps it to the ASCII letter k. -/
theorem sanitize_totality_counterexample :
    sanitizeForBranchName (jstr "Untitled") = untitledStr ∧
    (jstr "Untitled").any isAsciiAlnum = true ∧
    sanitizeForBranchName [Char.ofNat 0x212A] = ['k'] ∧
    ([Char.ofNat 0x212A]).any isAsciiAlnum = false ∧
    (['k'] : Str) ≠ untitledStr := by
  refine ⟨by decide, by decide, by decide, by decide, by decide⟩

/-- C6 (amended): the sanitizer never returns the empty string; it returns
the literal untitled exactly when the JS-lowercased input contains no ASCII
alphanumeric character, or when the pipeline output happens to be the very
string untitled. -/
theorem sanitize_totality (s : Str) :
    sanitizeForBranchName s ≠ [] ∧
    (sanitizeForBranchName s = untitledStr ↔
      ((jsToLower s).all (fun c => !isAsciiAlnum c) = true ∨
        sanitizePipeline s = untitledStr)) := by
  constructor
  · rcases sanitize_shape s with h | ⟨heq, hne⟩
    · rw [h]
      decide
    · rw [heq]
      exact hne
  · constructor
    · intro h
      rw [sanitizeForBranchName] at h
      split at h
      · rename_i hcond
        left
        rw [List.all_eq_true]
        intro c hc
        rcases hcond with rfl | htr
        · simp [jsToLower] at hc
        · have hallsp : ∀ d ∈ s, isJsSpace d = true :=
            (ends_eq_nil_iff isJsSpace s).mp htr
          have hlow : jsToLower s = s :=
            jsToLower_eq_self s (fun d hd => space_lower_fixed d (hallsp d hd))
          rw [hlow] at hc
          simp [space_not_alnum c (hallsp c hc)]
      · dsimp only at h
        split at h
        · rename_i hpnil
          left
          rw [List.all_eq_true]
          intro c hc
          simp [(sanitizePipeline_eq_nil_iff s).mp hpnil c hc]
        · exact Or.inr h
    · intro h
      rcases h with h | h
      · exact sanitize_untitled_of_no_alnum s h
      · rw [sanitizeForBranchName]
        split
        · rfl
        · dsimp only
          split
          · rfl
          · exact h

/-- C8 counterexample: for the title consisting of the single character
U+212A KELVIN SIGN, which contains no ASCII alphanumeric, the generated
branch name ends in k rather than in the fallback untitled. -/
theorem branch_name_counterexample :
    generateBranchName 1 [Char.ofNat 0x212A] = jstr "feature/task-1-k" ∧
    ([Char.ofNat 0x212A]).any isAsciiAlnum = false ∧
    jstr "feature/task-1-k" ≠ jstr "feature/task-1-" ++ untitledStr := by
  refine ⟨by decide, by decide, by decide⟩

/-- C8 (amended): generateBranchName returns feature/task-, the decimal id,
a hyphen and the sanitized title; when the JS-lowercased title contains no
ASCII alphanumeric (in particular for a purely Japanese title) the slug part
is the fallback untitled. -/
theorem branch_name_composition (taskId : Int) (taskTitle : Str) :
    generateBranchName taskId taskTitle =
      jstr "feature/task-" ++ jstr (toString taskId) ++ ['-'] ++
        sanitizeForBranchName taskTitle ∧
    ((jsToLower taskTitle).all (fun c => !isAsciiAlnum c) = true →
      generateBranchName taskId taskTitle =
        jstr "feature/task-" ++ jstr (toString taskId) ++ ['-'] ++ untitledStr) := by
  refine ⟨rfl, ?_⟩
  intro h
  rw [generateBranchName, sanitize_untitled_of_no_alnum taskTitle h]

/-- Closed instance of amended C8: a purely Japanese title yields the
fallback slug. -/
theorem branch_name_composition_witness :
    generateBranchName 7 (jstr "ユーザー認証") =
      jstr "feature/task-" ++ jstr (toString (7 : Int)) ++ ['-'] ++ untitledStr :=
  (branch_name_composition 7 (jstr "ユーザー認証")).2 (by decide)

end TaskCLI
